import Mathlib

set_option linter.dupNamespace false
set_option linter.unusedVariables false
set_option linter.unnecessarySeqFocus false

/-!
# Verification of the APIpie provider-config generator (`cmd/apipie/main.go`)

A shallow embedding of the display-name resolution and caching subsystem of
the `catwalk` APIpie tool, together with proofs about its behaviour.

Go strings are modelled as `List Char` (`GoStr`), so that `len` can be the
UTF-8 byte length and string operations are plain list operations.  The
SHA-256 hash used for metadata fingerprints is modelled as an abstract
function parameter `hf : GoStr → GoStr` applied to the exact pre-image
string the Go code builds; every statement that needs collision-freedom
assumes `hf` injective, and every statement about equal fingerprints is
made at the level of the pre-image string (so it holds for the real
SHA-256 as well).
-/

/-- Go strings, as lists of characters. -/
abbrev GoStr := List Char

/-- The characters treated as whitespace by the model of `strings.TrimSpace`
(the common ASCII whitespace; the full Unicode space class of Go is not
exercised by this tool's data). -/
def isSpaceChar (c : Char) : Bool :=
  c = ' ' || c = '\t' || c = '\n' || c = '\r'

/-- Drop elements satisfying `p` from the end of a list. -/
def dropEndWhile (p : Char → Bool) (s : GoStr) : GoStr :=
  (s.reverse.dropWhile p).reverse

/-- Model of Go `strings.TrimSpace`. -/
def trimSpace (s : GoStr) : GoStr :=
  dropEndWhile isSpaceChar (s.dropWhile isSpaceChar)

/-- Model of Go `strings.Trim s cutset`: remove any characters of `cut`
from both ends. -/
def trimCut (cut : GoStr) (s : GoStr) : GoStr :=
  dropEndWhile (fun c => decide (c ∈ cut)) (s.dropWhile (fun c => decide (c ∈ cut)))

/-- Boolean prefix test on character lists (no `BEq` indirection). -/
def isPre : GoStr → GoStr → Bool
  | [], _ => true
  | _ :: _, [] => false
  | a :: as, b :: bs => if a = b then isPre as bs else false

/-- Model of Go `strings.TrimPrefix`: remove `pre` once if it is a prefix. -/
def trimPre (pre s : GoStr) : GoStr :=
  if isPre pre s then s.drop pre.length else s

/-- Split a string at the first occurrence of `sep`; `none` if `sep` does not
occur.  Models the two-way split performed by `strings.SplitN(s, sep, 2)`
(which the Go code only calls after a `strings.Contains` guard). -/
def splitFirst (sep : GoStr) : GoStr → Option (GoStr × GoStr)
  | [] => if sep = [] then some ([], []) else none
  | c :: rest =>
    if isPre sep (c :: rest) then some ([], (c :: rest).drop sep.length)
    else (splitFirst sep rest).map (fun q => (c :: q.1, q.2))

/-- Model of Go `strings.Contains`. -/
def hasSub (s sub : GoStr) : Bool :=
  (splitFirst sub s).isSome

/-- Model of Go `strings.Split(s, "\n")`. -/
def splitOnNl : GoStr → List GoStr
  | [] => [[]]
  | c :: rest =>
    if c = '\n' then [] :: splitOnNl rest
    else
      match splitOnNl rest with
      | [] => [[c]]
      | l :: ls => (c :: l) :: ls

/-- Model of Go `strings.Join(parts, sep)` for a one-character separator. -/
def sepJoin (sep : Char) : List GoStr → GoStr
  | [] => []
  | [s] => s
  | s :: rest => s ++ sep :: sepJoin sep rest

/-- UTF-8 byte size of one character, as Go `len` counts it. -/
def charUtf8Size (c : Char) : Nat :=
  if c.toNat < 0x80 then 1
  else if c.toNat < 0x800 then 2
  else if c.toNat < 0x10000 then 3
  else 4

/-- Model of Go `len` on a string: total UTF-8 byte count. -/
def goLen (s : GoStr) : Nat :=
  (s.map charUtf8Size).sum

/-- The decimal digit characters, for rendering `%d`. -/
def digitChar (d : Nat) : Char :=
  match d with
  | 0 => '0' | 1 => '1' | 2 => '2' | 3 => '3' | 4 => '4'
  | 5 => '5' | 6 => '6' | 7 => '7' | 8 => '8' | _ => '9'

/-- Fuel-driven decimal rendering of a natural number (most significant
digit first).  The fuel is only there to make the recursion structural. -/
def natStrAux : Nat → Nat → GoStr
  | 0, _ => []
  | fuel + 1, n =>
    if n < 10 then [digitChar n]
    else natStrAux fuel (n / 10) ++ [digitChar (n % 10)]

/-- Decimal rendering of a natural number, as `fmt.Sprintf("%d", n)`. -/
def natStr (n : Nat) : GoStr := natStrAux (n + 1) n

/-- Decimal rendering of an `int64`, as `fmt.Sprintf("%d", i)`. -/
def intStr (i : Int) : GoStr :=
  if i < 0 then '-' :: natStr i.natAbs else natStr i.toNat

/-- Numeric value of a digit string (used to invert `natStr`). -/
def natVal (s : GoStr) : Nat :=
  s.foldl (fun a c => 10 * a + (c.toNat - 48)) 0

/-- Value of an unsigned digit string: at least one digit and nothing
else, as the digit part of `strconv.Atoi`. -/
def digitsVal (t : GoStr) : Option Nat :=
  if t ≠ [] && t.all Char.isDigit then some (natVal t) else none

/-- Model of Go `strconv.Atoi`: optional sign followed by at least one
digit; anything else is an error (`none`).  Overflow of `int64` is not
modelled: an overflowing position is far beyond any group size, so it is
discarded by the range check exactly as Go discards it via the `Atoi`
error. -/
def atoi (s : GoStr) : Option Int :=
  match s with
  | '+' :: rest => (digitsVal rest).map Int.ofNat
  | '-' :: rest => (digitsVal rest).map (fun n => -(n : Int))
  | _ => (digitsVal s).map Int.ofNat

/-- Convenience coercion from Lean string literals. -/
def gs (s : String) : GoStr := s.data

example : trimSpace (gs "  ab c\t") = gs "ab c" := by decide
example : splitFirst (gs "] ->") (gs "[1] -> GPT-4") = some (gs "[1", gs " GPT-4") := by decide
example : splitOnNl (gs "a\n\nb") = [gs "a", gs "", gs "b"] := by decide
example : natStr 120 = gs "120" := by decide
example : intStr (-45) = gs "-45" := by decide
example : atoi (gs "+12") = some 12 := by decide
example : atoi (gs "1x") = none := by decide
example : trimCut (gs "\"'") (gs "'\"ab\"") = gs "ab" := by decide
example : trimPre (gs "[") (gs "[3") = gs "3" := by decide
example : sepJoin ',' [gs "a", gs "b"] = gs "a,b" := by decide
example : goLen (gs "aé") = 3 := by decide

/-- The model record from the APIpie detailed endpoint (`Model` in
`main.go`).  Pricing and `MaxResponseTokens` are omitted: no verified
component reads them (pricing is floating-point cost plumbing).  The Go
field `Type` is rendered `Type'` because `Type` is a Lean keyword. -/
structure Model where
  ID : GoStr := []
  Model : GoStr := []
  Route : GoStr := []
  Description : GoStr := []
  MaxTokens : Int := 0
  Type' : GoStr := []
  Subtype : GoStr := []
  Provider : GoStr := []
  Pool : GoStr := []
  InstructType : GoStr := []
  Quantization : GoStr := []
  Enabled : Int := 0
  Available : Int := 0
  InputModalities : List GoStr := []
  OutputModalities : List GoStr := []
  deriving DecidableEq, Repr

/-- Model of `isTextModel` (main.go:116): enabled, available, and an LLM. -/
def isTextModel (model : Model) : Bool :=
  model.Enabled = 1 && model.Available = 1 && model.Type' = gs "llm"

/-- The ordered differentiation fields fed to `fmt.Sprintf` in
`hashModelMetadata` (main.go:529): description, provider, route, pool,
subtype, instruct type, quantization, base model string, joined input and
output modalities, and the decimal context-token limit. -/
def metadataFields (model : Model) : List GoStr :=
  [model.Description, model.Provider, model.Route, model.Pool, model.Subtype,
   model.InstructType, model.Quantization, model.Model,
   sepJoin ',' model.InputModalities, sepJoin ',' model.OutputModalities,
   intStr model.MaxTokens]

/-- The exact pre-image string hashed by `hashModelMetadata`: the eleven
differentiation fields joined with `"|"`. -/
def metadataString (model : Model) : GoStr :=
  sepJoin '|' (metadataFields model)

/-- Model of `hashModelMetadata` (main.go:527): SHA-256 (abstracted as
`hf`) of the pipe-joined differentiation metadata. -/
def hashModelMetadata (hf : GoStr → GoStr) (model : Model) : GoStr :=
  hf (metadataString model)

/-- Model of `getModelCacheKey` (main.go:521): identifier, a pipe, and the
metadata fingerprint. -/
def getModelCacheKey (hf : GoStr → GoStr) (model : Model) : GoStr :=
  model.ID ++ '|' :: hashModelMetadata hf model

/-- Modelled from the spec: `hashDescription` lives in a cache source file
that is not part of `src/`; per §4.1 it is the legacy single-field variant
that hashed only the description with the same cryptographic hash
(abstracted as `hf`). -/
def hashDescription (hf : GoStr → GoStr) (description : GoStr) : GoStr :=
  hf description

/-- Association-list maps with replace-on-insert semantics, modelling both
Go `map[string]string` values and the cache table. -/
abbrev KVMap := List (GoStr × GoStr)

/-- Insert with last-write-wins replacement, as a Go map assignment. -/
def insertKV : KVMap → GoStr → GoStr → KVMap
  | [], k, v => [(k, v)]
  | (k', v') :: rest, k, v =>
    if k' = k then (k, v) :: rest else (k', v') :: insertKV rest k v

/-- Key lookup in an association list. -/
def lookupKV : KVMap → GoStr → Option GoStr
  | [], _ => none
  | (k', v') :: rest, k => if k' = k then some v' else lookupKV rest k

/-- Modelled from the spec: the Persistent Cache (§4.2) lives in a source
file that is not part of `src/`.  It is a durable key→value store from
`(identifier, fingerprint)` cache keys to display names; creation
timestamps and the age sweep are omitted because no settled claim touches
them, and storage errors are not modelled (per §4.2 a read error behaves
as a miss and a write error leaves the store unchanged, both of which are
special cases of the statements proved here). -/
abbrev Cache := KVMap

/-- Lookup by raw key, empty string on miss (as `Cache.Get` returns `""`). -/
def Cache.GetKey (cache : Cache) (key : GoStr) : GoStr :=
  (lookupKV cache key).getD []

/-- Modelled from the spec: `get` looks up by (identifier, fingerprint)
and returns the empty string on a miss (§4.2). -/
def Cache.Get (hf : GoStr → GoStr) (cache : Cache) (model : Model) : GoStr :=
  Cache.GetKey cache (getModelCacheKey hf model)

/-- Modelled from the spec: `set` is an idempotent upsert keyed by
(identifier, fingerprint); last write wins (§4.2). -/
def Cache.Set (hf : GoStr → GoStr) (cache : Cache) (model : Model) (name : GoStr) : Cache :=
  insertKV cache (getModelCacheKey hf model) name

/-- The shared basic sanity check on a candidate display name
(main.go:320 and main.go:436): non-empty, at most 60 bytes, no embedded
line break. -/
def validName (name : GoStr) : Bool :=
  goLen name > 0 && goLen name ≤ 60 && !hasSub name (gs "\n")

/-- The post-processing the single-model path applies to raw generated
text (main.go:432-441): trim whitespace, strip surrounding quote
characters, then the basic sanity check. -/
def singleNameValidate (raw : GoStr) : Option GoStr :=
  let name := trimCut (gs "\"'") (trimSpace raw)
  if validName name then some name else none

/-- The post-processing the group path applies to the text after `"] ->"`
on a response line (main.go:314-322): trim whitespace, then the basic
sanity check — no quote stripping. -/
def groupNameValidate (raw : GoStr) : Option GoStr :=
  let name := trimSpace raw
  if validName name then some name else none

/-- Outcome of one external chat-completions call, the only effect the
network can have on the program: transport failure, non-200 status,
undecodable body, or a decoded list of choice contents. -/
inductive CallResult where
  | netError
  | badStatus (code : Int) (body : GoStr)
  | decodeError
  | ok (choices : List GoStr)
  deriving DecidableEq, Repr

/-- The call outcomes that never yield a usable payload; each of them is
reported to the notification sink by both generation paths. -/
def CallResult.isTransportFailure : CallResult → Bool
  | .netError => true
  | .badStatus _ _ => true
  | .decodeError => true
  | .ok [] => true
  | .ok (_ :: _) => false

/-- Model of `generateDisplayNameWithLLM` (main.go:345): returns the
generated name (empty on any failure) together with the list of messages
passed to `notifyGitHubUser`.  Request marshalling and construction
cannot fail on this fixed request shape and are not modelled. -/
def generateDisplayNameWithLLM (apiKey : GoStr) (call : CallResult)
    (id description : GoStr) : GoStr × List GoStr :=
  if apiKey = [] then ([], [])
  else
    match call with
    | .netError =>
      ([], [gs "APIpie API request failed for display name generation - network error"])
    | .badStatus _ _ =>
      ([], [gs "APIpie API returned non-200 status for display name generation"])
    | .decodeError =>
      ([], [gs "Failed to decode APIpie response for display name generation"])
    | .ok [] =>
      ([], [gs "APIpie returned empty choices for display name generation"])
    | .ok (content :: _) =>
      match singleNameValidate content with
      | some name => (name, [])
      | none => ([], [gs "APIpie returned invalid display name format"])

/-- Model of `parseIndex` (main.go:332): 0-based index, `-1` if invalid. -/
def parseIndex (s : GoStr) : Int :=
  match atoi s with
  | some idx => if idx > 0 then idx - 1 else -1
  | none => -1

/-- Processing of one response line by `parseGroupNamesResponse`
(main.go:307-326). -/
def parseLine (hf : GoStr → GoStr) (models : List Model)
    (result : KVMap) (line0 : GoStr) : KVMap :=
  let line := trimSpace line0
  if hasSub line (gs "] ->") then
    match splitFirst (gs "] ->") line with
    | some (p0, p1) =>
      let indexStr := trimPre (gs "[") (trimSpace p0)
      let idx := parseIndex indexStr
      if 0 ≤ idx ∧ idx < (models.length : Int) then
        match models[idx.toNat]? with
        | some model =>
          match groupNameValidate p1 with
          | some name => insertKV result (getModelCacheKey hf model) name
          | none => result
        | none => result
      else result
    | none => result
  else result

/-- Model of `parseGroupNamesResponse` (main.go:303): fold the line parser
over the `"\n"`-split response. -/
def parseGroupNamesResponse (hf : GoStr → GoStr) (response : GoStr)
    (models : List Model) : KVMap :=
  (splitOnNl response).foldl (parseLine hf models) []

/-- Model of `generateDisplayNamesForGroup` (main.go:166): `none` models
the Go `nil` map returned on every failure path; the second component is
the list of notification messages. -/
def generateDisplayNamesForGroup (hf : GoStr → GoStr) (apiKey : GoStr)
    (call : CallResult) (models : List Model) : Option KVMap × List GoStr :=
  if apiKey = [] then (none, [])
  else
    match models with
    | [model] =>
      let r := generateDisplayNameWithLLM apiKey call model.ID model.Description
      if r.1 ≠ [] then (some [(getModelCacheKey hf model, r.1)], r.2)
      else (none, r.2)
    | _ =>
      match call with
      | .netError =>
        (none, [gs "APIpie API request failed for group display name generation - network error"])
      | .badStatus _ _ =>
        (none, [gs "APIpie API returned non-200 status for group display name generation"])
      | .decodeError =>
        (none, [gs "Failed to decode APIpie response for group display name generation"])
      | .ok [] =>
        (none, [gs "APIpie returned empty choices for group display name generation"])
      | .ok (content :: _) =>
        (some (parseGroupNamesResponse hf (trimSpace content) models), [])

/-- Model of `createDisplayName` (main.go:446): cache-first single-model
resolution; returns the name, the updated cache, and the notifications. -/
def createDisplayName (hf : GoStr → GoStr) (apiKey : GoStr) (call : CallResult)
    (cache : Cache) (model : Model) : GoStr × Cache × List GoStr :=
  let cached := Cache.Get hf cache model
  if cached ≠ [] then (cached, cache, [])
  else
    let r := generateDisplayNameWithLLM apiKey call model.ID model.Description
    if r.1 ≠ [] then (r.1, Cache.Set hf cache model r.1, r.2)
    else (model.ID, cache, r.2)

/-- One step of the cache-partition loop of `createDisplayNamesForGroup`
(main.go:474-481). -/
def partitionStep (hf : GoStr → GoStr) (cache : Cache)
    (acc : KVMap × List Model) (model : Model) : KVMap × List Model :=
  let cached := Cache.Get hf cache model
  if cached ≠ [] then (insertKV acc.1 (getModelCacheKey hf model) cached, acc.2)
  else (acc.1, acc.2 ++ [model])

/-- The cache-partition loop of `createDisplayNamesForGroup`
(main.go:474-481): cached names keyed by cache key, plus the uncached
models in order. -/
def groupPartition (hf : GoStr → GoStr) (cache : Cache) (models : List Model) :
    KVMap × List Model :=
  models.foldl (partitionStep hf cache) ([], [])

/-- One step of the successful-result loop of `createDisplayNamesForGroup`
(main.go:491-506): record the name and write it through to the cache when
some uncached model carries that key. -/
def applyGroupNames (hf : GoStr → GoStr) (uncached : List Model)
    (acc : KVMap × Cache) (kv : GoStr × GoStr) : KVMap × Cache :=
  (insertKV acc.1 kv.1 kv.2,
   if uncached.any (fun m => getModelCacheKey hf m = kv.1) then insertKV acc.2 kv.1 kv.2
   else acc.2)

/-- One step of the fallback loop of `createDisplayNamesForGroup`
(main.go:510-515). -/
def fallbackStep (hf : GoStr → GoStr) (r : KVMap) (model : Model) : KVMap :=
  let key := getModelCacheKey hf model
  match lookupKV r key with
  | some _ => r
  | none => insertKV r key model.ID

/-- The fallback loop of `createDisplayNamesForGroup` (main.go:510-515):
any uncached model whose key is still absent gets its raw identifier. -/
def fallbackFill (hf : GoStr → GoStr) (uncached : List Model) (result : KVMap) : KVMap :=
  uncached.foldl (fallbackStep hf) result

/-- Model of `createDisplayNamesForGroup` (main.go:469). -/
def createDisplayNamesForGroup (hf : GoStr → GoStr) (apiKey : GoStr)
    (call : CallResult) (cache : Cache) (models : List Model) :
    KVMap × Cache × List GoStr :=
  let p := groupPartition hf cache models
  if p.2 = [] then (p.1, cache, [])
  else
    let g := generateDisplayNamesForGroup hf apiKey call p.2
    match g.1 with
    | none => (fallbackFill hf p.2 p.1, cache, g.2)
    | some names =>
      let rc := names.foldl (applyGroupNames hf p.2) (p.1, cache)
      (fallbackFill hf p.2 rc.1, rc.2, g.2)

/-- One step of the grouping loop of `main` (main.go:616-620): append the
model to its identifier's group, keeping first-seen group order (a
deterministic refinement of Go's unordered map iteration). -/
def insertGroup (groups : List (GoStr × List Model)) (model : Model) :
    List (GoStr × List Model) :=
  match groups with
  | [] => [(model.ID, [model])]
  | (k, ms) :: rest =>
    if k = model.ID then (k, ms ++ [model]) :: rest
    else (k, ms) :: insertGroup rest model

/-- The `modelGroups` map of `main` (main.go:615-620): text models grouped
by identifier. -/
def modelGroups (data : List Model) : List (GoStr × List Model) :=
  (data.filter isTextModel).foldl insertGroup []

/-- An output record of the provider configuration; only the fields the
naming subsystem determines are modelled (cost and context plumbing read
other fields verbatim). -/
structure OutModel where
  ID : GoStr
  Name : GoStr
  deriving DecidableEq, Repr

/-- Processing of one group by `main` (main.go:623-681): resolve display
names (single path for a singleton group — note the legacy handoff key at
main.go:630 — group path otherwise), then emit one record per member,
looking the name up by `getModelCacheKey` with the raw identifier as
fallback. -/
def processGroup (hf : GoStr → GoStr) (apiKey : GoStr) (call : CallResult)
    (st : List OutModel × Cache × List GoStr) (g : GoStr × List Model) :
    List OutModel × Cache × List GoStr :=
  let dnc : KVMap × Cache × List GoStr :=
    match g.2 with
    | [model] =>
      let r := createDisplayName hf apiKey call st.2.1 model
      ([(model.ID ++ '|' :: hashDescription hf model.Description, r.1)], r.2.1, r.2.2)
    | ms => createDisplayNamesForGroup hf apiKey call st.2.1 ms
  let newRecs := g.2.map (fun model =>
    OutModel.mk model.ID ((lookupKV dnc.1 (getModelCacheKey hf model)).getD model.ID))
  (st.1 ++ newRecs, dnc.2.1, st.2.2 ++ dnc.2.2)

/-- Model of the resolution-and-emission phase of `main` (main.go:614-681):
group the fetched catalog, resolve names group by group threading the
cache, and emit the output records.  The final name sort and the JSON
serialization permute and re-encode the records without changing them and
are not modelled. -/
def processModels (hf : GoStr → GoStr) (apiKey : GoStr) (call : CallResult)
    (cache : Cache) (data : List Model) : List OutModel × Cache × List GoStr :=
  (modelGroups data).foldl (processGroup hf apiKey call) ([], cache, [])

/-! ## Injectivity of the metadata pre-image string -/

/-- Splitting at a separator that occurs in neither prefix is unambiguous. -/
theorem sepSplit_inj {sep : Char} {x : GoStr} : ∀ {y r1 r2 : GoStr}, sep ∉ x → sep ∉ y →
    x ++ sep :: r1 = y ++ sep :: r2 → x = y ∧ r1 = r2 := by
  induction x with
  | nil =>
    intro y r1 r2 _ hy h
    cases y with
    | nil => simpa using h
    | cons b y' =>
      simp only [List.nil_append, List.cons_append, List.cons.injEq] at h
      exact absurd (by rw [h.1]; exact List.mem_cons_self b y') hy
  | cons a x' ih =>
    intro y r1 r2 hx hy h
    cases y with
    | nil =>
      simp only [List.cons_append, List.nil_append, List.cons.injEq] at h
      exact absurd (by rw [← h.1]; exact List.mem_cons_self a x') hx
    | cons b y' =>
      simp only [List.cons_append, List.cons.injEq] at h
      obtain ⟨hab, htail⟩ := h
      obtain ⟨h1, h2⟩ := ih (fun hm => hx (List.mem_cons_of_mem _ hm))
        (fun hm => hy (List.mem_cons_of_mem _ hm)) htail
      exact ⟨by rw [hab, h1], h2⟩

/-- Peeling the first component off equal separator-joins of two or more
components. -/
theorem sepJoin_cons_inj {sep : Char} {a b : GoStr} {l1 l2 : List GoStr}
    (ha : sep ∉ a) (hb : sep ∉ b) (h1 : l1 ≠ []) (h2 : l2 ≠ [])
    (h : sepJoin sep (a :: l1) = sepJoin sep (b :: l2)) :
    a = b ∧ sepJoin sep l1 = sepJoin sep l2 := by
  match l1, l2 with
  | t1 :: r1, t2 :: r2 =>
    simp only [sepJoin] at h
    exact sepSplit_inj ha hb h


/-- A separator-join contains the separator only via its components. -/
theorem not_mem_sepJoin {sep c : Char} (hc : c ≠ sep) : ∀ {l : List GoStr},
    (∀ x ∈ l, c ∉ x) → c ∉ sepJoin sep l := by
  intro l
  induction l with
  | nil => intro _ h; simp [sepJoin] at h
  | cons s rest ih =>
    intro hall hmem
    cases rest with
    | nil => exact hall s (by simp) (by simpa [sepJoin] using hmem)
    | cons t r =>
      simp only [sepJoin, List.mem_append, List.mem_cons] at hmem
      rcases hmem with h | h | h
      · exact hall s (by simp) h
      · exact hc h
      · exact ih (fun x hx => hall x (List.mem_cons_of_mem _ hx)) h

/-- Joining non-empty, separator-free components is injective (this is what
`strings.Join(modalities, ",")` needs for the fingerprint to separate
models with different modality lists). -/
theorem sepJoin_inj {sep : Char} {l1 : List GoStr} : ∀ {l2 : List GoStr},
    (∀ x ∈ l1, x ≠ [] ∧ sep ∉ x) → (∀ x ∈ l2, x ≠ [] ∧ sep ∉ x) →
    sepJoin sep l1 = sepJoin sep l2 → l1 = l2 := by
  induction l1 with
  | nil =>
    intro l2 _ h2 h
    cases l2 with
    | nil => rfl
    | cons b l2' =>
      exfalso
      cases l2' with
      | nil => exact (h2 b (by simp)).1 (by simpa [sepJoin] using h.symm)
      | cons t r => simp [sepJoin] at h
  | cons a l1' ih =>
    intro l2 h1 h2 h
    cases l2 with
    | nil =>
      exfalso
      cases l1' with
      | nil => exact (h1 a (by simp)).1 (by simpa [sepJoin] using h)
      | cons t r => simp [sepJoin] at h
    | cons b l2' =>
      cases l1' with
      | nil =>
        cases l2' with
        | nil => rw [show a = b by simpa [sepJoin] using h]
        | cons t2 r2 =>
          exfalso
          have ha := (h1 a (by simp)).2
          simp only [sepJoin] at h
          rw [h] at ha
          exact ha (by simp)
      | cons t1 r1 =>
        cases l2' with
        | nil =>
          exfalso
          have hb := (h2 b (by simp)).2
          simp only [sepJoin] at h
          rw [← h] at hb
          exact hb (by simp)
        | cons t2 r2 =>
          obtain ⟨hab, htail⟩ := sepJoin_cons_inj (h1 a (by simp)).2 (h2 b (by simp)).2
            (by simp) (by simp) h
          rw [hab, ih (fun x hx => h1 x (List.mem_cons_of_mem _ hx))
            (fun x hx => h2 x (List.mem_cons_of_mem _ hx)) htail]

/-- Every digit character is a digit. -/
theorem digitChar_isDigit (d : Nat) : (digitChar d).isDigit = true := by
  unfold digitChar
  split <;> decide

/-- Numeric value of a digit character, below ten. -/
theorem digitChar_val (d : Nat) (h : d < 10) : (digitChar d).toNat - 48 = d := by
  interval_cases d <;> decide

/-- Every character of a rendered natural number is a digit. -/
theorem natStrAux_all_digit : ∀ fuel n c, c ∈ natStrAux fuel n → c.isDigit = true := by
  intro fuel
  induction fuel with
  | zero => intro n c h; simp [natStrAux] at h
  | succ f ih =>
    intro n c h
    by_cases hn : n < 10
    · simp [natStrAux, hn] at h
      rw [h]; exact digitChar_isDigit n
    · simp only [natStrAux, if_neg hn, List.mem_append, List.mem_cons, List.not_mem_nil,
        or_false] at h
      rcases h with h | h
      · exact ih _ _ h
      · rw [h]; exact digitChar_isDigit _

/-- A rendered natural number is never empty (with positive fuel). -/
theorem natStrAux_ne_nil (fuel n : Nat) (h : 0 < fuel) : natStrAux fuel n ≠ [] := by
  cases fuel with
  | zero => omega
  | succ f => by_cases hn : n < 10 <;> simp [natStrAux, hn]

/-- Appending one digit multiplies the parsed value by ten. -/
theorem natVal_append_digit (xs : GoStr) (c : Char) :
    natVal (xs ++ [c]) = 10 * natVal xs + (c.toNat - 48) := by
  simp [natVal, List.foldl_append]

/-- Parsing inverts rendering. -/
theorem natVal_natStrAux : ∀ fuel n, n < fuel → natVal (natStrAux fuel n) = n := by
  intro fuel
  induction fuel with
  | zero => intro n h; omega
  | succ f ih =>
    intro n h
    by_cases hn : n < 10
    · simp only [natStrAux, if_pos hn, natVal, List.foldl_cons, List.foldl_nil]
      have := digitChar_val n hn
      omega
    · rw [natStrAux, if_neg hn, natVal_append_digit, ih (n / 10) (by omega),
        digitChar_val (n % 10) (by omega)]
      omega

/-- Decimal rendering of naturals is injective. -/
theorem natStr_inj {a b : Nat} (h : natStr a = natStr b) : a = b := by
  have ha := natVal_natStrAux (a + 1) a (by omega)
  have hb := natVal_natStrAux (b + 1) b (by omega)
  unfold natStr at h
  rw [← ha, ← hb, h]

/-- A rendered natural starts with a digit. -/
theorem natStr_head_digit (n : Nat) :
    ∃ c rest, natStr n = c :: rest ∧ c.isDigit = true := by
  cases hcase : natStr n with
  | nil => exact absurd hcase (natStrAux_ne_nil _ _ (by omega))
  | cons c rest =>
    have hmem : c ∈ natStrAux (n + 1) n := by
      rw [show natStrAux (n + 1) n = natStr n from rfl, hcase]
      exact List.mem_cons_self c rest
    exact ⟨c, rest, rfl, natStrAux_all_digit _ _ _ hmem⟩

/-- Decimal rendering of `int64` values is injective. -/
theorem intStr_inj {i j : Int} (h : intStr i = intStr j) : i = j := by
  unfold intStr at h
  by_cases hi : i < 0 <;> by_cases hj : j < 0
  · rw [if_pos hi, if_pos hj] at h
    simp only [List.cons.injEq, true_and] at h
    have := natStr_inj h
    omega
  · rw [if_pos hi, if_neg hj] at h
    obtain ⟨c, rest, hc, hd⟩ := natStr_head_digit j.toNat
    rw [hc] at h
    have : ('-' : Char) = c := (List.cons.injEq _ _ _ _).mp h |>.1
    rw [← this] at hd
    exact absurd hd (by decide)
  · rw [if_neg hi, if_pos hj] at h
    obtain ⟨c, rest, hc, hd⟩ := natStr_head_digit i.toNat
    rw [hc] at h
    have : c = '-' := (List.cons.injEq _ _ _ _).mp h |>.1
    rw [this] at hd
    exact absurd hd (by decide)
  · rw [if_neg hi, if_neg hj] at h
    have := natStr_inj h
    omega

/-- The pipe never occurs in a rendered `int64`. -/
theorem not_pipe_mem_intStr (i : Int) : '|' ∉ intStr i := by
  unfold intStr
  intro hmem
  by_cases hi : i < 0
  · rw [if_pos hi] at hmem
    rcases List.mem_cons.mp hmem with h | h
    · exact absurd h (by decide)
    · exact absurd (natStrAux_all_digit _ _ _ h) (by decide)
  · rw [if_neg hi] at hmem
    exact absurd (natStrAux_all_digit _ _ _ hmem) (by decide)

/-- Agreement of two model records on every differentiation field read by
`hashModelMetadata`. -/
def SameDiffFields (M1 M2 : Model) : Prop :=
  M1.Description = M2.Description ∧ M1.Provider = M2.Provider ∧ M1.Route = M2.Route ∧
  M1.Pool = M2.Pool ∧ M1.Subtype = M2.Subtype ∧ M1.InstructType = M2.InstructType ∧
  M1.Quantization = M2.Quantization ∧ M1.Model = M2.Model ∧
  M1.InputModalities = M2.InputModalities ∧ M1.OutputModalities = M2.OutputModalities ∧
  M1.MaxTokens = M2.MaxTokens

instance (M1 M2 : Model) : Decidable (SameDiffFields M1 M2) := by
  unfold SameDiffFields; infer_instance

/-- Delimiter-cleanliness of a model record: no differentiation string
field contains the pipe used by `hashModelMetadata` as field separator,
and the modality lists have non-empty elements free of the comma used by
`strings.Join` (the exact regime in which the flat `%s|%s|...`
concatenation is unambiguous). -/
def CleanModel (m : Model) : Prop :=
  '|' ∉ m.Description ∧ '|' ∉ m.Provider ∧ '|' ∉ m.Route ∧ '|' ∉ m.Pool ∧
  '|' ∉ m.Subtype ∧ '|' ∉ m.InstructType ∧ '|' ∉ m.Quantization ∧ '|' ∉ m.Model ∧
  (∀ x ∈ m.InputModalities, x ≠ [] ∧ ',' ∉ x ∧ '|' ∉ x) ∧
  (∀ x ∈ m.OutputModalities, x ≠ [] ∧ ',' ∉ x ∧ '|' ∉ x)

instance (m : Model) : Decidable (CleanModel m) := by
  unfold CleanModel; infer_instance

/-- For delimiter-clean records the metadata pre-image string determines
every differentiation field. -/
theorem metadataString_inj {M1 M2 : Model} (h1 : CleanModel M1) (h2 : CleanModel M2)
    (h : metadataString M1 = metadataString M2) : SameDiffFields M1 M2 := by
  obtain ⟨d1, p1, r1, l1, s1, i1, q1, b1, in1, out1⟩ := h1
  obtain ⟨d2, p2, r2, l2, s2, i2, q2, b2, in2, out2⟩ := h2
  simp only [metadataString, metadataFields, sepJoin] at h
  obtain ⟨e1, h⟩ := sepSplit_inj d1 d2 h
  obtain ⟨e2, h⟩ := sepSplit_inj p1 p2 h
  obtain ⟨e3, h⟩ := sepSplit_inj r1 r2 h
  obtain ⟨e4, h⟩ := sepSplit_inj l1 l2 h
  obtain ⟨e5, h⟩ := sepSplit_inj s1 s2 h
  obtain ⟨e6, h⟩ := sepSplit_inj i1 i2 h
  obtain ⟨e7, h⟩ := sepSplit_inj q1 q2 h
  obtain ⟨e8, h⟩ := sepSplit_inj b1 b2 h
  obtain ⟨e9, h⟩ := sepSplit_inj
    (not_mem_sepJoin (by decide) (fun x hx => (in1 x hx).2.2))
    (not_mem_sepJoin (by decide) (fun x hx => (in2 x hx).2.2)) h
  obtain ⟨e10, h⟩ := sepSplit_inj
    (not_mem_sepJoin (by decide) (fun x hx => (out1 x hx).2.2))
    (not_mem_sepJoin (by decide) (fun x hx => (out2 x hx).2.2)) h
  exact ⟨e1, e2, e3, e4, e5, e6, e7, e8,
    sepJoin_inj (fun x hx => ⟨(in1 x hx).1, (in1 x hx).2.1⟩)
      (fun x hx => ⟨(in2 x hx).1, (in2 x hx).2.1⟩) e9,
    sepJoin_inj (fun x hx => ⟨(out1 x hx).1, (out1 x hx).2.1⟩)
      (fun x hx => ⟨(out2 x hx).1, (out2 x hx).2.1⟩) e10,
    intStr_inj h⟩

/-- C2 fails as stated: two records that differ in the description (and in
the provider) share one metadata pre-image string — `"a|b" + "|" + "c"`
and `"a" + "|" + "b|c"` both flatten to `"a|b|c|..."` — so
`hashModelMetadata` is forced to the same value, for the identity map
shown here and for the real SHA-256 alike. -/
theorem c2_counterexample :
    hashModelMetadata (fun s => s) { Description := gs "a|b", Provider := gs "c" } =
      hashModelMetadata (fun s => s) { Description := gs "a", Provider := gs "b|c" } ∧
    metadataString { Description := gs "a|b", Provider := gs "c" } =
      metadataString { Description := gs "a", Provider := gs "b|c" } ∧
    ({ Description := gs "a|b", Provider := gs "c" } : Model).Description ≠
      ({ Description := gs "a", Provider := gs "b|c" } : Model).Description := by
  decide

/-- C2 (amended): for delimiter-clean records (no pipe in any string
differentiation field, modality entries non-empty and comma- and
pipe-free), any difference in a differentiation field forces different
fingerprints, up to injectivity of the underlying hash. -/
theorem c2_theorem (hf : GoStr → GoStr) (hinj : Function.Injective hf)
    (M1 M2 : Model) (h1 : CleanModel M1) (h2 : CleanModel M2)
    (hdiff : ¬ SameDiffFields M1 M2) :
    hashModelMetadata hf M1 ≠ hashModelMetadata hf M2 :=
  fun h => hdiff (metadataString_inj h1 h2 (hinj h))

/-- Witness for `c2_theorem` at two records differing in provider. -/
theorem c2_witness :
    Function.Injective (fun s : GoStr => s) ∧
    CleanModel { Provider := gs "openai" } ∧ CleanModel { Provider := gs "azure" } ∧
    ¬ SameDiffFields { Provider := gs "openai" } { Provider := gs "azure" } ∧
    hashModelMetadata (fun s : GoStr => s) { Provider := gs "openai" } ≠
      hashModelMetadata (fun s : GoStr => s) { Provider := gs "azure" } :=
  ⟨fun _ _ h => h, by decide, by decide, by decide,
    c2_theorem _ (fun _ _ h => h) _ _ (by decide) (by decide) (by decide)⟩

/-- C3: the fingerprint is a pure deterministic function of the eleven
differentiation fields — records agreeing on all of them hash equal,
whatever the underlying hash function — and the all-zero record is
fingerprinted as the join of empty fields and `0`, not rejected. -/
theorem c3_theorem (hf : GoStr → GoStr) (M1 M2 : Model) (hsame : SameDiffFields M1 M2) :
    hashModelMetadata hf M1 = hashModelMetadata hf M2 ∧
    metadataString {} = gs "||||||||||0" := by
  obtain ⟨e1, e2, e3, e4, e5, e6, e7, e8, e9, e10, e11⟩ := hsame
  refine ⟨?_, by decide⟩
  unfold hashModelMetadata metadataString metadataFields
  rw [e1, e2, e3, e4, e5, e6, e7, e8, e9, e10, e11]

/-- Witness for `c3_theorem` at two records differing only in fields the
fingerprint ignores (identifier, enabled flag). -/
theorem c3_witness :
    SameDiffFields { ID := gs "a" } { ID := gs "b", Enabled := 1 } ∧
    hashModelMetadata (fun s => s) { ID := gs "a" } =
      hashModelMetadata (fun s => s) { ID := gs "b", Enabled := 1 } :=
  ⟨by decide, (c3_theorem (fun s => s) { ID := gs "a" } { ID := gs "b", Enabled := 1 }
    (by decide)).1⟩

/-! ## Association-list and partition lemmas -/

theorem lookupKV_insertKV_self (m : KVMap) (k v : GoStr) :
    lookupKV (insertKV m k v) k = some v := by
  induction m with
  | nil => simp [insertKV, lookupKV]
  | cons kv rest ih =>
    obtain ⟨k', v'⟩ := kv
    by_cases h : k' = k
    · simp [insertKV, h, lookupKV]
    · simp [insertKV, h, lookupKV, ih]

theorem lookupKV_insertKV_ne (m : KVMap) {k k' : GoStr} (h : k ≠ k') (v : GoStr) :
    lookupKV (insertKV m k v) k' = lookupKV m k' := by
  induction m with
  | nil => simp [insertKV, lookupKV, h]
  | cons kv rest ih =>
    obtain ⟨k'', v''⟩ := kv
    by_cases hk : k'' = k
    · subst hk
      simp [insertKV, lookupKV, h, Ne.symm h]
    · simp [insertKV, hk, lookupKV, ih]

theorem partitionStep_cached {hf : GoStr → GoStr} {cache : Cache} {model : Model}
    (h : Cache.Get hf cache model ≠ []) (acc : KVMap × List Model) :
    partitionStep hf cache acc model =
      (insertKV acc.1 (getModelCacheKey hf model) (Cache.Get hf cache model), acc.2) := by
  unfold partitionStep
  simp only [ne_eq, ite_not]
  rw [if_neg h]

theorem groupPartition_all_cached (hf : GoStr → GoStr) (cache : Cache) :
    ∀ (models : List Model) (r : KVMap) (u : List Model),
    (∀ m ∈ models, Cache.Get hf cache m ≠ []) →
    models.foldl (partitionStep hf cache) (r, u) =
      (models.foldl (fun a m => insertKV a (getModelCacheKey hf m) (Cache.Get hf cache m)) r,
       u) := by
  intro models
  induction models with
  | nil => intro r u _; rfl
  | cons m ms ih =>
    intro r u hall
    simp only [List.foldl_cons]
    rw [partitionStep_cached (hall m (by simp))]
    exact ih _ _ (fun x hx => hall x (List.mem_cons_of_mem _ hx))

/-- C4: when the cache lookup returns a non-empty name, `createDisplayName`
returns exactly that cached name, leaves the cache untouched, and emits no
notification; the credential and the external call outcome are arbitrary
and absent from the result, so no generation call is consulted and no
cache write happens. -/
theorem c4_theorem (hf : GoStr → GoStr) (apiKey : GoStr) (call : CallResult)
    (cache : Cache) (model : Model) (hhit : Cache.Get hf cache model ≠ []) :
    createDisplayName hf apiKey call cache model = (Cache.Get hf cache model, cache, []) := by
  unfold createDisplayName
  simp only [ne_eq, ite_not]
  rw [if_neg hhit]

/-- Witness for `c4_theorem`: a one-entry cache hit, under an unset
credential and a failing network, still returns the cached name. -/
theorem c4_witness :
    Cache.Get (fun s => s) (Cache.Set (fun s => s) [] { ID := gs "m" } (gs "X"))
        { ID := gs "m" } ≠ [] ∧
    createDisplayName (fun s => s) [] CallResult.netError
        (Cache.Set (fun s => s) [] { ID := gs "m" } (gs "X")) { ID := gs "m" } =
      (Cache.Get (fun s => s) (Cache.Set (fun s => s) [] { ID := gs "m" } (gs "X"))
        { ID := gs "m" },
       Cache.Set (fun s => s) [] { ID := gs "m" } (gs "X"), []) :=
  ⟨by decide, c4_theorem _ _ _ _ _ (by decide)⟩

/-- C6: when every group member has a cached name, the group resolver
returns exactly the cached names keyed by each member's cache key, leaves
the cache unchanged, and emits no notification; the credential and call
outcome are arbitrary and absent from the result, so no generation call is
made. -/
theorem c6_theorem (hf : GoStr → GoStr) (apiKey : GoStr) (call : CallResult)
    (cache : Cache) (models : List Model)
    (hall : ∀ m ∈ models, Cache.Get hf cache m ≠ []) :
    createDisplayNamesForGroup hf apiKey call cache models =
      (models.foldl (fun a m => insertKV a (getModelCacheKey hf m) (Cache.Get hf cache m)) [],
       cache, []) := by
  unfold createDisplayNamesForGroup groupPartition
  rw [groupPartition_all_cached hf cache models [] [] hall]
  rfl

/-- Witness for `c6_theorem` on a fully cached two-member group. -/
theorem c6_witness :
    (∀ m ∈ [({ ID := gs "m" } : Model), { ID := gs "m", Provider := gs "p" }],
      Cache.Get (fun s => s)
        (Cache.Set (fun s => s) (Cache.Set (fun s => s) [] { ID := gs "m" } (gs "X"))
          { ID := gs "m", Provider := gs "p" } (gs "Y")) m ≠ []) ∧
    createDisplayNamesForGroup (fun s => s) [] CallResult.netError
        (Cache.Set (fun s => s) (Cache.Set (fun s => s) [] { ID := gs "m" } (gs "X"))
          { ID := gs "m", Provider := gs "p" } (gs "Y"))
        [{ ID := gs "m" }, { ID := gs "m", Provider := gs "p" }] =
      ([({ ID := gs "m" } : Model), { ID := gs "m", Provider := gs "p" }].foldl
        (fun a m => insertKV a (getModelCacheKey (fun s => s) m)
          (Cache.Get (fun s => s)
            (Cache.Set (fun s => s) (Cache.Set (fun s => s) [] { ID := gs "m" } (gs "X"))
              { ID := gs "m", Provider := gs "p" } (gs "Y")) m)) [],
       Cache.Set (fun s => s) (Cache.Set (fun s => s) [] { ID := gs "m" } (gs "X"))
         { ID := gs "m", Provider := gs "p" } (gs "Y"), []) :=
  ⟨by decide, c6_theorem _ _ _ _ _ (by decide)⟩

/-- Writing group results for other keys never changes the lookup at a key
absent from the parsed result map. -/
theorem applyGroupNames_cache_lookup (hf : GoStr → GoStr) (uncached : List Model)
    (k : GoStr) : ∀ (names : KVMap) (acc : KVMap × Cache),
    lookupKV names k = none →
    lookupKV ((names.foldl (applyGroupNames hf uncached) acc).2) k = lookupKV acc.2 k := by
  intro names
  induction names with
  | nil => intro acc _; rfl
  | cons kv rest ih =>
    intro acc hnone
    obtain ⟨k', v'⟩ := kv
    simp only [lookupKV] at hnone
    by_cases hk : k' = k
    · rw [if_pos hk] at hnone
      exact absurd hnone (by simp)
    · rw [if_neg hk] at hnone
      simp only [List.foldl_cons]
      rw [ih (applyGroupNames hf uncached acc (k', v')) hnone]
      simp only [applyGroupNames]
      by_cases hany : uncached.any (fun m => getModelCacheKey hf m = k') = true
      · rw [if_pos hany]
        exact lookupKV_insertKV_ne acc.2 hk v'
      · rw [if_neg hany]

/-- C5: a fallback name is never cached.  Single path: when the cache
misses and generation fails, `createDisplayName` returns the raw
identifier with the cache unchanged, so the same key still misses.
Group path: when a cache-missing member's key is absent from the parsed
generation result (in particular on outright generation failure), no
write touches that key, so a subsequent get for that exact key still
misses. -/
theorem c5_theorem (hf : GoStr → GoStr) (apiKey : GoStr) (call : CallResult)
    (cache : Cache) :
    (∀ model : Model, Cache.Get hf cache model = [] →
      (generateDisplayNameWithLLM apiKey call model.ID model.Description).1 = [] →
      createDisplayName hf apiKey call cache model =
        (model.ID, cache,
         (generateDisplayNameWithLLM apiKey call model.ID model.Description).2)) ∧
    (∀ (models : List Model) (model : Model), model ∈ models →
      Cache.Get hf cache model = [] →
      ((generateDisplayNamesForGroup hf apiKey call
          (groupPartition hf cache models).2).1.bind
        (fun ns => lookupKV ns (getModelCacheKey hf model))) = none →
      Cache.Get hf (createDisplayNamesForGroup hf apiKey call cache models).2.1 model
        = []) := by
  constructor
  · intro model hmiss hfail
    unfold createDisplayName
    simp only [ne_eq, ite_not]
    rw [if_pos hmiss, if_pos hfail]
  · intro models model hm hmiss hgen
    unfold createDisplayNamesForGroup
    simp only []
    by_cases hP : (groupPartition hf cache models).2 = []
    · rw [if_pos hP]
      exact hmiss
    · rw [if_neg hP]
      cases hg : (generateDisplayNamesForGroup hf apiKey call
          (groupPartition hf cache models).2).1 with
      | none => exact hmiss
      | some names =>
        have hnone : lookupKV names (getModelCacheKey hf model) = none := by
          rw [hg] at hgen
          simpa using hgen
        show Cache.Get hf
          ((names.foldl (applyGroupNames hf (groupPartition hf cache models).2)
            ((groupPartition hf cache models).1, cache)).2) model = []
        unfold Cache.Get Cache.GetKey
        rw [applyGroupNames_cache_lookup hf (groupPartition hf cache models).2
          (getModelCacheKey hf model) names ((groupPartition hf cache models).1, cache) hnone]
        exact hmiss

/-- Witness for `c5_theorem`: unset credential, one cache-missing model,
for both the single and the group path; the name falls back to the raw
identifier and the key still misses afterwards. -/
theorem c5_witness :
    Cache.Get (fun s => s) [] { ID := gs "m" } = [] ∧
    createDisplayName (fun s => s) [] CallResult.netError [] { ID := gs "m" } =
      (gs "m", [], []) ∧
    Cache.Get (fun s => s)
      (createDisplayNamesForGroup (fun s => s) [] CallResult.netError []
        [{ ID := gs "m" }]).2.1 { ID := gs "m" } = [] := by
  refine ⟨by decide, ?_, ?_⟩
  · exact (c5_theorem (fun s => s) [] CallResult.netError []).1 { ID := gs "m" }
      (by decide) (by rfl)
  · exact (c5_theorem (fun s => s) [] CallResult.netError []).2 [{ ID := gs "m" }]
      { ID := gs "m" } (by decide) (by decide) (by rfl)

/-! ## Parsing lemmas for the group-response grammar -/

theorem isPre_append_self (s t : GoStr) : isPre s (s ++ t) = true := by
  induction s with
  | nil => rfl
  | cons c s' ih => simp [isPre, ih]

theorem isPre_head_ne {a b : Char} (h : b ≠ a) (as bs : GoStr) :
    isPre (a :: as) (b :: bs) = false := by
  simp [isPre, Ne.symm h]

theorem splitFirst_cons (sep : GoStr) (c : Char) (rest : GoStr) :
    splitFirst sep (c :: rest) =
      if isPre sep (c :: rest) then some ([], (c :: rest).drop sep.length)
      else (splitFirst sep rest).map (fun q => (c :: q.1, q.2)) := rfl

/-- The split finds the separator right after a prefix that avoids the
separator's first character. -/
theorem splitFirst_at_first {h0 : Char} {tl : GoStr} {x : GoStr} :
    ∀ {y : GoStr}, (∀ c ∈ x, c ≠ h0) →
    splitFirst (h0 :: tl) (x ++ ((h0 :: tl) ++ y)) = some (x, y) := by
  induction x with
  | nil =>
    intro y _
    rw [List.nil_append]
    have hcons : (h0 :: tl) ++ y = h0 :: (tl ++ y) := rfl
    rw [hcons, splitFirst_cons, if_pos (by rw [← hcons]; exact isPre_append_self _ _)]
    have hdrop : (h0 :: (tl ++ y)).drop (h0 :: tl).length = y := List.drop_left (h0 :: tl) y
    rw [hdrop]
  | cons c x' ih =>
    intro y hx
    have hne : c ≠ h0 := hx c (by simp)
    rw [List.cons_append, splitFirst_cons, if_neg (by simp [isPre_head_ne hne])]
    rw [ih (fun d hd => hx d (List.mem_cons_of_mem _ hd))]
    rfl

theorem dropWhile_eq_self_of_all {p : Char → Bool} {s : GoStr}
    (h : ∀ c ∈ s, p c = false) : s.dropWhile p = s := by
  cases s with
  | nil => rfl
  | cons c t => rw [List.dropWhile_cons, if_neg (by simp [h c (by simp)])]

theorem dropEndWhile_eq_self_of_all {p : Char → Bool} {s : GoStr}
    (h : ∀ c ∈ s, p c = false) : dropEndWhile p s = s := by
  unfold dropEndWhile
  rw [dropWhile_eq_self_of_all (fun c hc => h c (List.mem_reverse.mp hc)),
    List.reverse_reverse]

theorem trimSpace_eq_self_of_all {s : GoStr} (h : ∀ c ∈ s, isSpaceChar c = false) :
    trimSpace s = s := by
  unfold trimSpace
  rw [dropWhile_eq_self_of_all h, dropEndWhile_eq_self_of_all h]

theorem dropEndWhile_append (p : Char → Bool) (x y : GoStr) :
    dropEndWhile p (x ++ y) =
      if dropEndWhile p y = [] then dropEndWhile p x else x ++ dropEndWhile p y := by
  unfold dropEndWhile
  rw [List.reverse_append, List.dropWhile_append]
  by_cases h : y.reverse.dropWhile p = []
  · rw [if_pos (by simp [h]), if_pos (by simp [h])]
  · rw [if_neg (by simpa using h), if_neg (by simpa using h), List.reverse_append,
      List.reverse_reverse]

/-- Dropping trailing matches distributes over an append whose left part is
itself trailing-clean. -/
theorem dropEndWhile_append_of_left {p : Char → Bool} {x : GoStr}
    (hx : dropEndWhile p x = x) (y : GoStr) :
    dropEndWhile p (x ++ y) = x ++ dropEndWhile p y := by
  rw [dropEndWhile_append]
  by_cases h : dropEndWhile p y = []
  · rw [if_pos h, h, List.append_nil, hx]
  · rw [if_neg h]

/-- A string ending in a non-matching character is trailing-clean. -/
theorem dropEndWhile_concat {p : Char → Bool} {c : Char} (hc : p c = false) (z : GoStr) :
    dropEndWhile p (z ++ [c]) = z ++ [c] := by
  unfold dropEndWhile
  rw [show (z ++ [c]).reverse = c :: z.reverse by simp]
  rw [List.dropWhile_cons, if_neg (by simp [hc])]
  simp

/-- A response without an embedded line break is one single line. -/
theorem splitOnNl_no_nl {s : GoStr} (h : '\n' ∉ s) : splitOnNl s = [s] := by
  induction s with
  | nil => rfl
  | cons c t ih =>
    have hc : c ≠ '\n' := fun hh => h (by rw [hh]; exact List.mem_cons_self _ _)
    have ht : '\n' ∉ t := fun hh => h (List.mem_cons_of_mem _ hh)
    unfold splitOnNl
    rw [if_neg hc, ih ht]

/-- Characters a decimal digit can never be. -/
theorem isDigit_props {c : Char} (h : c.isDigit = true) :
    c ≠ ']' ∧ isSpaceChar c = false ∧ c ≠ '+' ∧ c ≠ '-' := by
  have hb : c ≠ ']' := fun hh => by rw [hh] at h; exact absurd h (by decide)
  have hsp : c ≠ ' ' := fun hh => by rw [hh] at h; exact absurd h (by decide)
  have hta : c ≠ '\t' := fun hh => by rw [hh] at h; exact absurd h (by decide)
  have hnl : c ≠ '\n' := fun hh => by rw [hh] at h; exact absurd h (by decide)
  have hcr : c ≠ '\r' := fun hh => by rw [hh] at h; exact absurd h (by decide)
  have hpl : c ≠ '+' := fun hh => by rw [hh] at h; exact absurd h (by decide)
  have hmi : c ≠ '-' := fun hh => by rw [hh] at h; exact absurd h (by decide)
  exact ⟨hb, by simp [isSpaceChar, hsp, hta, hnl, hcr], hpl, hmi⟩

theorem digitsVal_natStr (p : Nat) : digitsVal (natStr p) = some p := by
  unfold digitsVal natStr
  rw [if_pos]
  · rw [natVal_natStrAux (p + 1) p (by omega)]
  · simp only [ne_eq, natStrAux_ne_nil (p + 1) p (by omega), not_false_eq_true,
      decide_True, Bool.true_and, List.all_eq_true]
    intro c hc
    simpa using natStrAux_all_digit _ _ _ hc

theorem atoi_natStr (p : Nat) : atoi (natStr p) = some (p : Int) := by
  obtain ⟨c, rest, hc, hd⟩ := natStr_head_digit p
  obtain ⟨_, _, hcp, hcm⟩ := isDigit_props hd
  rw [hc]
  unfold atoi
  split
  · next rest' heq =>
    exact absurd (List.cons.injEq _ _ _ _ ▸ heq).1 hcp
  · next rest' heq =>
    exact absurd (List.cons.injEq _ _ _ _ ▸ heq).1 hcm
  · rw [← hc, digitsVal_natStr]
    rfl

theorem parseIndex_natStr (p : Nat) (hp : 1 ≤ p) :
    parseIndex (natStr p) = (p : Int) - 1 := by
  unfold parseIndex
  rw [atoi_natStr]
  simp only []
  rw [if_pos (by exact_mod_cast hp)]

theorem parseIndex_natStr_zero : parseIndex (natStr 0) = -1 := by decide

theorem parseIndex_none {ix : GoStr} (h : atoi ix = none) : parseIndex ix = -1 := by
  unfold parseIndex
  rw [h]

/-- Evaluation of `parseLine` on a line of the structured form
`"[" ++ ix ++ "] ->" ++ rest`, for an index part free of brackets and
whitespace and a tail without trailing whitespace. -/
theorem parseLine_structured (hf : GoStr → GoStr) (ms : List Model) (result : KVMap)
    (ix rest : GoStr) (hix : ∀ c ∈ ix, c ≠ ']' ∧ isSpaceChar c = false)
    (htr : dropEndWhile isSpaceChar rest = rest) :
    parseLine hf ms result ('[' :: (ix ++ (gs "] ->" ++ rest))) =
      if 0 ≤ parseIndex ix ∧ parseIndex ix < (ms.length : Int) then
        match ms[(parseIndex ix).toNat]? with
        | some model =>
          match groupNameValidate rest with
          | some name => insertKV result (getModelCacheKey hf model) name
          | none => result
        | none => result
      else result := by
  have harrow : gs "] ->" = ']' :: gs " ->" := rfl
  have hxdrop : dropEndWhile isSpaceChar ('[' :: ix ++ gs "] ->") = '[' :: ix ++ gs "] ->" := by
    rw [show '[' :: ix ++ gs "] ->" = ('[' :: ix ++ gs "] -") ++ ['>'] by
      simp [show gs "] ->" = gs "] -" ++ ['>'] from by decide]]
    exact dropEndWhile_concat (by decide) _
  have hline : trimSpace ('[' :: (ix ++ (gs "] ->" ++ rest))) =
      '[' :: (ix ++ (gs "] ->" ++ rest)) := by
    unfold trimSpace
    rw [List.dropWhile_cons, if_neg (by decide)]
    rw [show '[' :: (ix ++ (gs "] ->" ++ rest)) = ('[' :: ix ++ gs "] ->") ++ rest by simp]
    rw [dropEndWhile_append_of_left hxdrop, htr]
  have hsplit : splitFirst (gs "] ->") ('[' :: (ix ++ (gs "] ->" ++ rest))) =
      some ('[' :: ix, rest) := by
    rw [harrow]
    rw [show '[' :: (ix ++ ((']' :: gs " ->") ++ rest)) =
      ('[' :: ix) ++ ((']' :: gs " ->") ++ rest) by simp]
    exact splitFirst_at_first (by
      intro c hc
      rcases List.mem_cons.mp hc with h | h
      · rw [h]; decide
      · exact (hix c h).1)
  have htrimix : trimSpace ('[' :: ix) = '[' :: ix :=
    trimSpace_eq_self_of_all (by
      intro c hc
      rcases List.mem_cons.mp hc with h | h
      · rw [h]; decide
      · exact (hix c h).2)
  have htrimpre : trimPre (gs "[") ('[' :: ix) = ix := by
    rw [show (gs "[") = ['['] from rfl]
    simp [trimPre, isPre]
  unfold parseLine
  simp only [hline, hasSub, hsplit, Option.isSome_some, if_true, htrimix, htrimpre]

/-- A structured response line contains no embedded line break when its
pieces do not. -/
theorem no_nl_in_line (ix rest : GoStr) (hix : ∀ c ∈ ix, isSpaceChar c = false)
    (hrest : '\n' ∉ rest) : '\n' ∉ ('[' :: (ix ++ (gs "] ->" ++ rest))) := by
  intro hmem
  rcases List.mem_cons.mp hmem with h | h
  · exact absurd h.symm (by decide)
  · rcases List.mem_append.mp h with h | h
    · exact absurd (hix '\n' h) (by decide)
    · rcases List.mem_append.mp h with h | h
      · exact absurd h (by decide)
      · exact hrest h

/-- C7 (amended): on a single response line `"[p] -> name"`, a position
`p` between 1 and the group size maps the validated name to the cache key
of the member at 0-based position `p-1`; if the name fails validation the
line yields no entry; a position of 0 or beyond the group size, or an
index part `strconv.Atoi` cannot parse, is silently discarded with no
entry and no error.  (The name part is taken trailing-whitespace-free;
the parser itself trims it.) -/
theorem c7_theorem (hf : GoStr → GoStr) (ms : List Model) :
    (∀ (p : Nat) (rest : GoStr) (model : Model), 1 ≤ p → p ≤ ms.length →
      '\n' ∉ rest → dropEndWhile isSpaceChar rest = rest → ms[p - 1]? = some model →
      parseGroupNamesResponse hf ('[' :: (natStr p ++ (gs "] ->" ++ rest))) ms =
        (match groupNameValidate rest with
         | some name => [(getModelCacheKey hf model, name)]
         | none => [])) ∧
    (∀ (p : Nat) (rest : GoStr), (p = 0 ∨ ms.length < p) → '\n' ∉ rest →
      dropEndWhile isSpaceChar rest = rest →
      parseGroupNamesResponse hf ('[' :: (natStr p ++ (gs "] ->" ++ rest))) ms = []) ∧
    (∀ (ix rest : GoStr), atoi ix = none →
      (∀ c ∈ ix, c ≠ ']' ∧ isSpaceChar c = false) → '\n' ∉ rest →
      dropEndWhile isSpaceChar rest = rest →
      parseGroupNamesResponse hf ('[' :: (ix ++ (gs "] ->" ++ rest))) ms = []) := by
  have hdig : ∀ p : Nat, ∀ c ∈ natStr p, c ≠ ']' ∧ isSpaceChar c = false := by
    intro p c hc
    obtain ⟨h1, h2, _, _⟩ := isDigit_props (natStrAux_all_digit _ _ _ hc)
    exact ⟨h1, h2⟩
  refine ⟨?_, ?_, ?_⟩
  · intro p rest model hp1 hple hnl htr hmodel
    unfold parseGroupNamesResponse
    rw [splitOnNl_no_nl (no_nl_in_line _ _ (fun c hc => (hdig p c hc).2) hnl),
      List.foldl_cons, List.foldl_nil,
      parseLine_structured hf ms [] (natStr p) rest (hdig p) htr,
      parseIndex_natStr p hp1,
      if_pos (by constructor <;> omega)]
    rw [show (((p : Int) - 1).toNat) = p - 1 by omega, hmodel]
    cases groupNameValidate rest <;> rfl
  · intro p rest hp hnl htr
    unfold parseGroupNamesResponse
    rw [splitOnNl_no_nl (no_nl_in_line _ _ (fun c hc => (hdig p c hc).2) hnl),
      List.foldl_cons, List.foldl_nil,
      parseLine_structured hf ms [] (natStr p) rest (hdig p) htr]
    rcases hp with hp | hp
    · subst hp
      rw [parseIndex_natStr_zero, if_neg (by omega)]
    · rw [parseIndex_natStr p (by omega), if_neg (by omega)]
  · intro ix rest hbad hix hnl htr
    unfold parseGroupNamesResponse
    rw [splitOnNl_no_nl (no_nl_in_line _ _ (fun c hc => (hix c hc).2) hnl),
      List.foldl_cons, List.foldl_nil,
      parseLine_structured hf ms [] ix rest hix htr,
      parseIndex_none hbad, if_neg (by omega)]

/-- C7 fails as stated: an in-range, well-formed line `"[1] -> <61 a's>"`
against a one-member group produces no entry at all (the name fails the
length validation), while the claim promises an entry at the member's
cache key for every in-range line. -/
theorem c7_counterexample :
    parseGroupNamesResponse (fun s => s)
        ('[' :: (natStr 1 ++ (gs "] ->" ++ (' ' :: List.replicate 61 'a'))))
        [{ ID := gs "m" }] = [] ∧
    (1 : Nat) ≤ [({ ID := gs "m" } : Model)].length := by decide

/-- Witness for `c7_theorem`: the spec's own two-member example — `"[2] ->
GPT-4 (Azure)"` maps to member 1's cache key, `"[3] -> X"` is discarded,
and an unparsable index part `"[x] -> X"` is discarded. -/
theorem c7_witness :
    parseGroupNamesResponse (fun s => s)
        ('[' :: (natStr 2 ++ (gs "] ->" ++ gs " GPT-4 (Azure)")))
        [{ ID := gs "m" }, { ID := gs "m", Provider := gs "az" }] =
      [(getModelCacheKey (fun s => s) { ID := gs "m", Provider := gs "az" },
        gs "GPT-4 (Azure)")] ∧
    parseGroupNamesResponse (fun s => s)
        ('[' :: (natStr 3 ++ (gs "] ->" ++ gs " X")))
        [{ ID := gs "m" }, { ID := gs "m", Provider := gs "az" }] = [] ∧
    parseGroupNamesResponse (fun s => s)
        ('[' :: (gs "x" ++ (gs "] ->" ++ gs " X")))
        [{ ID := gs "m" }, { ID := gs "m", Provider := gs "az" }] = [] := by
  refine ⟨?_, ?_, ?_⟩
  · rw [(c7_theorem (fun s => s) [{ ID := gs "m" }, { ID := gs "m", Provider := gs "az" }]).1
      2 (gs " GPT-4 (Azure)") { ID := gs "m", Provider := gs "az" }
      (by decide) (by decide) (by decide) (by decide) (by decide)]
    decide
  · exact (c7_theorem (fun s => s) [{ ID := gs "m" }, { ID := gs "m", Provider := gs "az" }]).2.1
      3 (gs " X") (by decide) (by decide) (by decide)
  · exact (c7_theorem (fun s => s) [{ ID := gs "m" }, { ID := gs "m", Provider := gs "az" }]).2.2
      (gs "x") (gs " X") (by decide) (by decide) (by decide) (by decide)

/-- C8 fails as stated: with the credential unset
(`APIPIE_DISPLAY_NAME_API_KEY` empty) both generation paths fail without
calling `notifyGitHubUser` at all, and a successful group call whose
payload parses to no usable line also fails (empty mapping) without a
notification. -/
theorem c8_counterexample :
    generateDisplayNameWithLLM [] CallResult.netError (gs "m") (gs "d") = ([], []) ∧
    generateDisplayNamesForGroup (fun s => s) [] CallResult.netError
      [{ ID := gs "m" }, { ID := gs "m", Provider := gs "p" }] = (none, []) ∧
    generateDisplayNamesForGroup (fun s => s) (gs "k") (CallResult.ok [gs "junk"])
      [{ ID := gs "m" }, { ID := gs "m", Provider := gs "p" }] = (some [], []) := by
  decide

/-- C8 (amended): with a credential configured, every transport-level
generation failure (network error, non-success status, decode error,
empty choices) is reported through `notifyGitHubUser` by both the
single-model and the group path, and the single-model path additionally
reports a generated name that fails validation; in each case the result
is empty, so resolution falls back without aborting.  With the credential
missing, both paths fail silently — no notification — which together with
a group payload that parses to no line are the only unreported generation
failures. -/
theorem c8_theorem (hf : GoStr → GoStr) (apiKey : GoStr) (call : CallResult)
    (id description : GoStr) (models : List Model) (hkey : apiKey ≠ []) :
    (call.isTransportFailure = true →
      (generateDisplayNameWithLLM apiKey call id description).1 = [] ∧
      (generateDisplayNameWithLLM apiKey call id description).2 ≠ [] ∧
      (generateDisplayNamesForGroup hf apiKey call models).1 = none ∧
      (generateDisplayNamesForGroup hf apiKey call models).2 ≠ []) ∧
    (∀ content rest, call = CallResult.ok (content :: rest) →
      singleNameValidate content = none →
      (generateDisplayNameWithLLM apiKey call id description).1 = [] ∧
      (generateDisplayNameWithLLM apiKey call id description).2 ≠ []) ∧
    generateDisplayNameWithLLM [] call id description = ([], []) ∧
    generateDisplayNamesForGroup hf [] call models = (none, []) := by
  refine ⟨?_, ?_, by simp [generateDisplayNameWithLLM], by simp [generateDisplayNamesForGroup]⟩
  · intro hfail
    have hsingle : ∀ i d : GoStr,
        (generateDisplayNameWithLLM apiKey call i d).1 = [] ∧
        (generateDisplayNameWithLLM apiKey call i d).2 ≠ [] := by
      intro i d
      cases call with
      | netError => simp [generateDisplayNameWithLLM, hkey]
      | badStatus code body => simp [generateDisplayNameWithLLM, hkey]
      | decodeError => simp [generateDisplayNameWithLLM, hkey]
      | ok choices =>
        cases choices with
        | nil => simp [generateDisplayNameWithLLM, hkey]
        | cons c cs => exact absurd hfail (by simp [CallResult.isTransportFailure])
    refine ⟨(hsingle id description).1, (hsingle id description).2, ?_⟩
    unfold generateDisplayNamesForGroup
    rw [if_neg hkey]
    match models with
    | [model] =>
      obtain ⟨h1, h2⟩ := hsingle model.ID model.Description
      simp only [h1, ne_eq, not_true_eq_false, if_false, ite_not]
      exact ⟨trivial, h2⟩
    | [] =>
      cases call with
      | netError => simp
      | badStatus code body => simp
      | decodeError => simp
      | ok choices =>
        cases choices with
        | nil => simp
        | cons c cs => exact absurd hfail (by simp [CallResult.isTransportFailure])
    | m1 :: m2 :: ms =>
      cases call with
      | netError => simp
      | badStatus code body => simp
      | decodeError => simp
      | ok choices =>
        cases choices with
        | nil => simp
        | cons c cs => exact absurd hfail (by simp [CallResult.isTransportFailure])
  · intro content rest hcall hval
    subst hcall
    unfold generateDisplayNameWithLLM
    rw [if_neg hkey]
    simp only [hval]
    exact ⟨trivial, by simp⟩

/-- Witness for `c8_theorem`: a network failure with a configured
credential fails with at least one notification on both paths. -/
theorem c8_witness :
    gs "k" ≠ [] ∧ CallResult.netError.isTransportFailure = true ∧
    (generateDisplayNameWithLLM (gs "k") CallResult.netError (gs "m") (gs "d")).1 = [] ∧
    (generateDisplayNamesForGroup (fun s => s) (gs "k") CallResult.netError
      [{ ID := gs "m" }, { ID := gs "m", Provider := gs "p" }]).2 ≠ [] :=
  ⟨by decide, by decide,
   ((c8_theorem (fun s => s) (gs "k") CallResult.netError (gs "m") (gs "d")
     [{ ID := gs "m" }, { ID := gs "m", Provider := gs "p" }] (by decide)).1 (by decide)).1,
   ((c8_theorem (fun s => s) (gs "k") CallResult.netError (gs "m") (gs "d")
     [{ ID := gs "m" }, { ID := gs "m", Provider := gs "p" }] (by decide)).1
       (by decide)).2.2.2⟩

/-- C9 fails as stated: the single-model path strips surrounding quote
characters before validating while the group path keeps them, so the raw
text `"A"` (with literal double quotes) yields final name `A` on the
single path but `"A"` on the group path. -/
theorem c9_counterexample :
    singleNameValidate (gs "\"A\"") = some (gs "A") ∧
    groupNameValidate (gs "\"A\"") = some (gs "\"A\"") ∧
    singleNameValidate (gs "\"A\"") ≠ groupNameValidate (gs "\"A\"") := by
  decide

/-- C9 (amended): both paths validate with the same base predicate
(`validName`: non-empty, at most 60 bytes, no embedded line break) after
whitespace trimming; the single path additionally strips surrounding
quote characters first.  Whenever that quote-strip is a no-op — the
trimmed text neither starts nor ends with a quote character — the two
paths accept exactly the same raw texts and produce identical final
names; and every name either path accepts satisfies `validName`. -/
theorem c9_theorem (raw : GoStr)
    (hq : trimCut (gs "\"'") (trimSpace raw) = trimSpace raw) :
    singleNameValidate raw = groupNameValidate raw ∧
    (∀ name, singleNameValidate raw = some name → validName name = true) ∧
    (∀ name, groupNameValidate raw = some name → validName name = true) := by
  refine ⟨?_, ?_, ?_⟩
  · unfold singleNameValidate groupNameValidate
    rw [hq]
  · intro name h
    simp only [singleNameValidate] at h
    split at h
    · next hv => cases h; exact hv
    · next => exact absurd h (by simp)
  · intro name h
    simp only [groupNameValidate] at h
    split at h
    · next hv => cases h; exact hv
    · next => exact absurd h (by simp)

/-- Witness for `c9_theorem` on unquoted raw text with surrounding
whitespace. -/
theorem c9_witness :
    trimCut (gs "\"'") (trimSpace (gs " GPT-4o ")) = trimSpace (gs " GPT-4o ") ∧
    singleNameValidate (gs " GPT-4o ") = groupNameValidate (gs " GPT-4o ") ∧
    singleNameValidate (gs " GPT-4o ") = some (gs "GPT-4o") :=
  ⟨by decide, (c9_theorem (gs " GPT-4o ") (by decide)).1, by decide⟩

/-! ## Counting lemmas for the grouping and emission phase -/

/-- Number of output records carrying a given identifier. -/
def countId (id : GoStr) (recs : List OutModel) : Nat :=
  (recs.filter (fun r => r.ID = id)).length

/-- Number of catalog models carrying a given identifier. -/
def countModelId (id : GoStr) (ml : List Model) : Nat :=
  (ml.filter (fun m => m.ID = id)).length

/-- Total member count for a given identifier across groups. -/
def groupsCount (id : GoStr) (groups : List (GoStr × List Model)) : Nat :=
  (groups.map (fun g => countModelId id g.2)).sum

theorem processGroup_countId (hf : GoStr → GoStr) (apiKey : GoStr) (call : CallResult)
    (st : List OutModel × Cache × List GoStr) (g : GoStr × List Model) (id : GoStr) :
    countId id (processGroup hf apiKey call st g).1 =
      countId id st.1 + countModelId id g.2 := by
  unfold processGroup countId countModelId
  simp only [List.filter_append, List.length_append, List.filter_map, List.length_map]
  rfl

theorem foldl_processGroup_countId (hf : GoStr → GoStr) (apiKey : GoStr)
    (call : CallResult) (id : GoStr) :
    ∀ (groups : List (GoStr × List Model)) (st : List OutModel × Cache × List GoStr),
    countId id ((groups.foldl (processGroup hf apiKey call) st).1) =
      countId id st.1 + groupsCount id groups := by
  intro groups
  induction groups with
  | nil => intro st; simp [groupsCount]
  | cons g rest ih =>
    intro st
    rw [List.foldl_cons, ih, processGroup_countId]
    simp only [groupsCount, List.map_cons, List.sum_cons]
    omega

theorem countModelId_append (id : GoStr) (l1 l2 : List Model) :
    countModelId id (l1 ++ l2) = countModelId id l1 + countModelId id l2 := by
  unfold countModelId
  rw [List.filter_append, List.length_append]

theorem insertGroup_groupsCount (id : GoStr) (m : Model) :
    ∀ groups : List (GoStr × List Model),
    groupsCount id (insertGroup groups m) =
      groupsCount id groups + countModelId id [m] := by
  intro groups
  induction groups with
  | nil => simp [insertGroup, groupsCount]
  | cons g rest ih =>
    obtain ⟨k, ms⟩ := g
    by_cases hk : k = m.ID
    · simp only [insertGroup, if_pos hk, groupsCount, List.map_cons, List.sum_cons,
        countModelId_append]
      omega
    · simp only [insertGroup, if_neg hk, groupsCount, List.map_cons, List.sum_cons]
      have := ih
      simp only [groupsCount] at this
      omega

theorem foldl_insertGroup_groupsCount (id : GoStr) :
    ∀ (l : List Model) (groups : List (GoStr × List Model)),
    groupsCount id (l.foldl insertGroup groups) =
      groupsCount id groups + countModelId id l := by
  intro l
  induction l with
  | nil => intro groups; simp [countModelId]
  | cons m rest ih =>
    intro groups
    rw [List.foldl_cons, ih, insertGroup_groupsCount]
    have : countModelId id (m :: rest) = countModelId id [m] + countModelId id rest := by
      unfold countModelId
      rw [List.filter_cons, List.filter_cons]
      by_cases h : m.ID = id <;> simp [h] <;> omega
    omega

theorem insertGroup_members (a x : Model) :
    ∀ (groups : List (GoStr × List Model)) (g' : GoStr × List Model),
    g' ∈ insertGroup groups a → x ∈ g'.2 →
    (∃ g ∈ groups, x ∈ g.2) ∨ x = a := by
  intro groups
  induction groups with
  | nil =>
    intro g' hg' hx
    simp only [insertGroup, List.mem_singleton] at hg'
    subst hg'
    simp only [List.mem_singleton] at hx
    exact Or.inr hx
  | cons g rest ih =>
    intro g' hg' hx
    obtain ⟨k, ms⟩ := g
    by_cases hk : k = a.ID
    · rw [insertGroup, if_pos hk] at hg'
      rcases List.mem_cons.mp hg' with hg' | hg'
      · subst hg'
        rcases List.mem_append.mp hx with hx | hx
        · exact Or.inl ⟨(k, ms), by simp, hx⟩
        · exact Or.inr (List.mem_singleton.mp hx)
      · exact Or.inl ⟨g', List.mem_cons_of_mem _ hg', hx⟩
    · rw [insertGroup, if_neg hk] at hg'
      rcases List.mem_cons.mp hg' with hg' | hg'
      · subst hg'
        exact Or.inl ⟨(k, ms), by simp, hx⟩
      · rcases ih g' hg' hx with ⟨g0, hg0, hx0⟩ | h
        · exact Or.inl ⟨g0, List.mem_cons_of_mem _ hg0, hx0⟩
        · exact Or.inr h

theorem foldl_insertGroup_members (P : Model → Prop) :
    ∀ (l : List Model) (groups : List (GoStr × List Model)),
    (∀ g ∈ groups, ∀ m ∈ g.2, P m) → (∀ m ∈ l, P m) →
    ∀ g ∈ l.foldl insertGroup groups, ∀ m ∈ g.2, P m := by
  intro l
  induction l with
  | nil => intro groups hg _ g hgmem m hm; exact hg g hgmem m hm
  | cons a rest ih =>
    intro groups hg hl
    rw [List.foldl_cons]
    apply ih
    · intro g hgmem m hm
      rcases insertGroup_members a m groups g hgmem hm with ⟨g0, hg0, hm0⟩ | h
      · exact hg g0 hg0 m hm0
      · rw [h]; exact hl a (by simp)
    · intro m hm
      exact hl m (List.mem_cons_of_mem _ hm)

/-- C10: only catalog models with `Enabled = 1`, `Available = 1` and
`Type = "llm"` are grouped and emitted: for every identifier the number
of emitted output records equals the number of text models with that
identifier in the fetched data — so every other fetched model produces no
record — and every group handed to name resolution consists solely of
text models, so no resolution is attempted for an excluded model. -/
theorem c10_theorem (hf : GoStr → GoStr) (apiKey : GoStr) (call : CallResult)
    (cache : Cache) (data : List Model) (id : GoStr) :
    countId id (processModels hf apiKey call cache data).1 =
      countModelId id (data.filter isTextModel) ∧
    ∀ g ∈ modelGroups data, ∀ m ∈ g.2, isTextModel m = true := by
  constructor
  · unfold processModels modelGroups
    rw [foldl_processGroup_countId, foldl_insertGroup_groupsCount]
    simp [countId, groupsCount]
  · unfold modelGroups
    exact foldl_insertGroup_members (fun m => isTextModel m = true)
      (data.filter isTextModel) [] (by simp) (fun m hm => (List.mem_filter.mp hm).2)

/-- A singleton text model whose display name is already cached under its
full cache key: the failing input for the C1 handoff bug. -/
def singletonBugModel : Model :=
  { ID := gs "m"
    Description := gs "d"
    Provider := gs "p"
    Enabled := 1
    Available := 1
    Type' := gs "llm" }

/-- The cache holding the resolved display name for `singletonBugModel`
under its full `(identifier, fingerprint)` key. -/
def singletonBugCache : Cache :=
  Cache.Set (fun s => s) [] singletonBugModel (gs "Nice Name")

/-- C1 (code bug at main.go:630): the singleton branch of the driver
records the resolved name under the legacy description-only key
`ID + "|" + hashDescription(desc)`, while the per-model emission loop
looks names up under `getModelCacheKey` (the full-metadata fingerprint,
main.go:640).  The two keys differ — the fingerprint pre-image appends
ten more fields to the description — so the lookup misses and the emitted
record carries the fallback identifier, not the resolved name.  At the
failing input: the cached name `"Nice Name"` is found by
`createDisplayName`, yet the emitted record for the singleton group is
`(ID "m", Name "m")`. -/
theorem c1_theorem :
    Cache.Get (fun s => s) singletonBugCache singletonBugModel = gs "Nice Name" ∧
    (createDisplayName (fun s => s) [] CallResult.netError singletonBugCache
      singletonBugModel).1 = gs "Nice Name" ∧
    (processModels (fun s => s) [] CallResult.netError singletonBugCache
      [singletonBugModel]).1 = [OutModel.mk (gs "m") (gs "m")] ∧
    singletonBugModel.ID ++ '|' ::
        hashDescription (fun s => s) singletonBugModel.Description ≠
      getModelCacheKey (fun s => s) singletonBugModel := by
  decide
